import Mathlib

/-!
Verification of the AudioEngine (src/services/audioEngine.ts) of the
ai-language-translator repository.

Shallow embedding of the real-time audio streaming engine.  Samples and
clock times are modelled as exact rationals, machine integers as Int/Nat;
byte buffers are lists of naturals (each element below 256) and the
text-safe transport strings are lists of characters.

Each definition mirrors one function or code region of
src/services/audioEngine.ts; the theorems at the end of the file settle
the specification claims about them.
-/

namespace AudioEngine

/-! Resampler: the method downsample, audioEngine.ts lines 283-302. -/

/-- JavaScript Math.round: half-up rounding, floor of q + 1/2. -/
def jsRound (q : ℚ) : ℤ := ⌊q + 1/2⌋

/-- Inner averaging loop of downsample: sum input i for i from lo
(inclusive) to min hi input.length (exclusive), count the samples, and
return accum / count, or 0 when the window is empty (count = 0). -/
def windowAvg (input : List ℚ) (lo hi : ℕ) : ℚ :=
  let hi' := min hi input.length
  let count := hi' - lo
  if count = 0 then 0 else ((input.drop lo).take (hi' - lo)).sum / count

/-- Outer while loop of downsample (while offsetResult < newLength):
remaining output samples still to produce, j the current offsetResult,
offIn the carried offsetInput.  Each step computes nextOffsetInput as
Math.round of (offsetResult + 1) times the rate quotient, averages the
input window from offsetInput to nextOffsetInput clipped to the input
length, and advances. -/
def downsampleLoop (input : List ℚ) (ratioQ : ℚ) :
    ℕ → ℕ → ℕ → List ℚ
  | 0, _, _ => []
  | remaining + 1, j, offIn =>
    let nextOff := (jsRound ((j + 1 : ℕ) * ratioQ)).toNat
    windowAvg input offIn nextOff ::
      downsampleLoop input ratioQ remaining (j + 1) nextOff

/-- Method downsample(input, inputRate, targetRate): identity when the
rates coincide, otherwise box-average decimation producing
Math.ceil(input.length / ratioQ) samples where ratioQ is
inputRate / targetRate. -/
def downsample (input : List ℚ) (inputRate targetRate : ℚ) : List ℚ :=
  if inputRate = targetRate then input
  else
    let ratioQ := inputRate / targetRate
    let newLength := (⌈(input.length : ℚ) / ratioQ⌉).toNat
    downsampleLoop input ratioQ newLength 0 0

/-! Quantizer and transport codec: the pcm16 conversion in onaudioprocess
(lines 171-178), the byte/base64 helpers arrayBufferToBase64 and atob, and
the decoding half of queueAudioOutput (lines 230-241). -/

/-- Clamping of one capture sample: Math.max(-1, Math.min(1, s)). -/
def clampSample (s : ℚ) : ℚ := max (-1) (min 1 s)

/-- JavaScript truncation toward zero, as applied when a number is stored
into an Int16Array element (the ToInt16 abstract operation). -/
def jsTrunc (q : ℚ) : ℤ := if q < 0 then ⌈q⌉ else ⌊q⌋

/-- Wrap of the truncated value into the signed 16-bit range, the second
half of ToInt16 (reduction modulo 2 to the 16). -/
def toInt16 (i : ℤ) : ℤ := (i + 32768) % 65536 - 32768

/-- Encoding of one float sample to a signed 16-bit value:
pcm16[i] = s < 0 ? s * 0x8000 : s * 0x7FFF after clamping. -/
def encodeSample (s : ℚ) : ℤ :=
  let c := clampSample s
  toInt16 (jsTrunc (if c < 0 then c * 32768 else c * 32767))

/-- Decoding of one signed 16-bit value in queueAudioOutput:
channelData[i] = int16[i] / 32768.0. -/
def decodeSample (v : ℤ) : ℚ := (v : ℚ) / 32768

/-- Little-endian byte layout of one Int16Array element as seen through
the underlying ArrayBuffer. -/
def int16ToBytesLE (v : ℤ) : List ℕ :=
  let u := (v % 65536).toNat
  [u % 256, u / 256]

/-- Reinterpretation of an unsigned 16-bit value as signed (the view
new Int16Array(bytes.buffer) in queueAudioOutput). -/
def toSigned16 (u : ℕ) : ℤ := if u < 32768 then (u : ℤ) else (u : ℤ) - 65536

/-- Grouping of a little-endian byte list into signed 16-bit samples; none
models the RangeError thrown by new Int16Array(buffer) when the byte
length is odd. -/
def bytesToInt16s : List ℕ → Option (List ℤ)
  | [] => some []
  | [_] => none
  | b0 :: b1 :: rest =>
    (bytesToInt16s rest).map fun vs => toSigned16 (b0 + 256 * b1) :: vs

/-- The base64 alphabet used by btoa and atob. -/
def base64Chars : List Char :=
  ['A', 'B', 'C', 'D', 'E', 'F', 'G', 'H', 'I', 'J', 'K', 'L', 'M',
   'N', 'O', 'P', 'Q', 'R', 'S', 'T', 'U', 'V', 'W', 'X', 'Y', 'Z',
   'a', 'b', 'c', 'd', 'e', 'f', 'g', 'h', 'i', 'j', 'k', 'l', 'm',
   'n', 'o', 'p', 'q', 'r', 's', 't', 'u', 'v', 'w', 'x', 'y', 'z',
   '0', '1', '2', '3', '4', '5', '6', '7', '8', '9', '+', '/']

/-- Index of a character in the base64 alphabet, none when absent. -/
def b64IndexGo : List Char → Char → ℕ → Option ℕ
  | [], _, _ => none
  | a :: rest, c, i => if a = c then some i else b64IndexGo rest c (i + 1)

/-- Value of one base64 digit. -/
def b64Val (c : Char) : Option ℕ := b64IndexGo base64Chars c 0

/-- Base64 digit for a sextet value (only ever applied below 64). -/
def b64Chr (n : ℕ) : Char := base64Chars.getD n 'A'

/-- Browser btoa on a byte list (the engine feeds it through
arrayBufferToBase64, which turns the buffer into a binary string
byte by byte): groups of three bytes become four base64 digits, with
padding for a short final group. -/
def btoa : List ℕ → List Char
  | [] => []
  | [b0] => [b64Chr (b0 / 4), b64Chr (b0 % 4 * 16), '=', '=']
  | [b0, b1] =>
    [b64Chr (b0 / 4), b64Chr (b0 % 4 * 16 + b1 / 16), b64Chr (b1 % 16 * 4), '=']
  | b0 :: b1 :: b2 :: rest =>
    b64Chr (b0 / 4) :: b64Chr (b0 % 4 * 16 + b1 / 16) ::
      b64Chr (b1 % 16 * 4 + b2 / 64) :: b64Chr (b2 % 64) :: btoa rest

/-- Browser atob on a character list (forgiving base64): none models the
InvalidCharacterError thrown on a character outside the alphabet, on
misplaced padding, or on an input whose length leaves a single trailing
digit. -/
def atob : List Char → Option (List ℕ)
  | [] => some []
  | [_] => none
  | [c0, c1] => do
    let v0 ← b64Val c0
    let v1 ← b64Val c1
    pure [v0 * 4 + v1 / 16]
  | [c0, c1, c2] => do
    let v0 ← b64Val c0
    let v1 ← b64Val c1
    let v2 ← b64Val c2
    pure [v0 * 4 + v1 / 16, v1 % 16 * 16 + v2 / 4]
  | c0 :: c1 :: c2 :: c3 :: rest =>
    if c2 = '=' ∧ c3 = '=' ∧ rest = [] then do
      let v0 ← b64Val c0
      let v1 ← b64Val c1
      pure [v0 * 4 + v1 / 16]
    else if c3 = '=' ∧ rest = [] then do
      let v0 ← b64Val c0
      let v1 ← b64Val c1
      let v2 ← b64Val c2
      pure [v0 * 4 + v1 / 16, v1 % 16 * 16 + v2 / 4]
    else do
      let v0 ← b64Val c0
      let v1 ← b64Val c1
      let v2 ← b64Val c2
      let v3 ← b64Val c3
      (atob rest).map fun bs =>
        (v0 * 4 + v1 / 16) :: (v1 % 16 * 16 + v2 / 4) :: (v2 % 4 * 64 + v3) :: bs

/-- Inbound decode of queueAudioOutput up to the Int16Array view: unwrap
the transport encoding, then reinterpret the bytes as signed 16-bit
little-endian samples. -/
def decodePacket (chars : List Char) : Option (List ℤ) :=
  match atob chars with
  | none => none
  | some bytes => bytesToInt16s bytes

/-- Full inbound decode: transport unwrap, 16-bit reinterpretation, and
division by 32768. -/
def decodeSamples (chars : List Char) : Option (List ℚ) :=
  (decodePacket chars).map fun vs => vs.map decodeSample

/-- Full outbound encode of a block: per-sample quantization, the
concatenated little-endian buffer of the Int16Array, then btoa. -/
def encodePacket (samples : List ℚ) : List Char :=
  btoa ((samples.map fun s => int16ToBytesLE (encodeSample s)).flatten)

/-! PlaybackScheduler: the scheduling half of queueAudioOutput
(lines 243-259).  The model covers the method body on an initialized
output graph (the early return when outputCtx or outputGainNode is null
schedules nothing and is outside these claims).  The catch block only
logs to the console, so the error-channel output of a step is always
empty. -/

/-- One scheduled buffer: the output-clock reading at the moment of
scheduling, the chosen start time, and the buffer duration. -/
structure Sched where
  now : ℚ
  start : ℚ
  dur : ℚ

/-- One call of queueAudioOutput: decode the packet (dropping it on
failure), apply drift correction (if nextStartTime < currentTime, reset
the cursor to currentTime), start the source at the cursor, and advance
the cursor by the buffer duration (buffer length over 24000 Hz).  Returns
the new cursor, the scheduled buffer if any, and the messages sent to the
error channel (none ever). -/
def enqueueStep (st : ℚ) (now : ℚ) (pkt : List Char) :
    ℚ × Option Sched × List String :=
  match decodeSamples pkt with
  | none => (st, none, [])
  | some samples =>
    let dur := (samples.length : ℚ) / 24000
    let start := if st < now then now else st
    (start + dur, some ⟨now, start, dur⟩, [])

/-- A run of queueAudioOutput calls: each event pairs the output-clock
reading at that call with the inbound packet; the result is the list of
scheduled buffers in order. -/
def runEnqueue (st : ℚ) : List (ℚ × List Char) → List Sched
  | [] => []
  | (now, pkt) :: rest =>
    match enqueueStep st now pkt with
    | (st', some e, _) => e :: runEnqueue st' rest
    | (st', none, _) => runEnqueue st' rest

/-! CaptureStage lifecycle: startInput and stopInput (lines 87-214).
The model tracks which nodes of the capture graph are retained by the
engine fields, and the messages sent to the error channel. -/

/-- Which capture-graph resources the engine currently retains (a field
is true when the corresponding member is non-null). -/
structure CaptureState where
  inputCtx : Bool
  stream : Bool
  source : Bool
  inputGainNode : Bool
  inputAnalyser : Bool
  processor : Bool
deriving DecidableEq

/-- Field initializers: every capture member starts null. -/
def initCaptureState : CaptureState :=
  ⟨false, false, false, false, false, false⟩

/-- Method stopInput: stops the stream tracks, disconnects and nulls the
processor, the gain node and the source, closes and nulls the context.
The method never touches this.inputAnalyser (no statement in the file
ever sets it back to null), so that member keeps its previous value. -/
def stopInput (s : CaptureState) : CaptureState :=
  { s with stream := false, processor := false, inputGainNode := false,
           source := false, inputCtx := false }

/-- Method startInput: first awaits stopInput, then creates the input
context, then requests the device.  When getUserMedia succeeds the full
graph is built (a fresh analyser included); when it rejects, the catch
block reports the failure on the error channel and nothing else runs, so
the freshly created context stays retained and the analyser member keeps
whatever value it had before (stopInput does not clear it). -/
def startInput (s : CaptureState) (getUserMediaOk : Bool) (errMsg : String) :
    CaptureState × List String :=
  let s1 := stopInput s
  let s2 := { s1 with inputCtx := true }
  if getUserMediaOk then
    ({ inputCtx := true, stream := true, source := true, inputGainNode := true,
       inputAnalyser := true, processor := true }, [])
  else
    (s2, ["Mic Error: " ++ errMsg])

/-! Gain control: setInputGain and setOutputGain (lines 37-49). -/

/-- The stored gain levels and, when the graph is live, the gain values of
the two GainNodes. -/
structure GainState where
  currentInputGain : ℚ
  currentOutputGain : ℚ
  inputGainNodeValue : Option ℚ
  outputGainNodeValue : Option ℚ

/-- Field initializers: both stored gains start at 1.0, no live nodes. -/
def initGainState : GainState := ⟨1, 1, none, none⟩

/-- Method setInputGain: store the value and, if the input gain node is
live, assign it there too. -/
def setInputGain (s : GainState) (v : ℚ) : GainState :=
  { s with currentInputGain := v,
           inputGainNodeValue := s.inputGainNodeValue.map fun _ => v }

/-- Method setOutputGain: store the value and, if the output gain node is
live, assign it there too. -/
def setOutputGain (s : GainState) (v : ℚ) : GainState :=
  { s with currentOutputGain := v,
           outputGainNodeValue := s.outputGainNodeValue.map fun _ => v }

/-! VolumeMonitor: the interval body of startVolumeMonitor
(lines 266-281). -/

/-- One tick of the volume monitor.  Each argument is some d, the current
byte-frequency snapshot of the corresponding analyser, when that analyser
member is non-null, and none when the member is null.  The guard is on
member nullness only, not on the path being active: stopInput never clears
this.inputAnalyser, so a stopped capture path can still present a stale
snapshot here.  Emitted events pair the path (true for capture, false for
playback) with the delivered value d[0] / 255. -/
def volumeTick (inputAnalyserData outputAnalyserData : Option (List ℕ)) :
    List (Bool × ℚ) :=
  (match inputAnalyserData with
   | some d => [(true, ((d.getD 0 0 : ℕ) : ℚ) / 255)]
   | none => []) ++
  (match outputAnalyserData with
   | some d => [(false, ((d.getD 0 0 : ℕ) : ℚ) / 255)]
   | none => [])

/-! Silence injection: the constants at lines 28-31 and the detection
logic of onaudioprocess (lines 137-161).  The source compares
rms = Math.sqrt(sum / 100) against the thresholds; the model compares
sum / 100 against the squared thresholds, which is equivalent because
both sides are nonnegative and squaring is monotone there. -/

/-- Constant silenceThreshold = 0.015. -/
def silenceThreshold : ℚ := 3 / 200

/-- Constant minSilenceInterval = 2500 milliseconds. -/
def minSilenceInterval : ℤ := 2500

/-- Square of the rms estimate: mean square of the first 100 samples of
the block (the loop bounds i by both sampleCount and the block length, and
always divides by sampleCount = 100). -/
def rmsSq (block : List ℚ) : ℚ := ((block.take 100).map fun x => x * x).sum / 100

/-- The silence-injection fields of the engine. -/
structure SilenceState where
  lastSilenceInjectionTime : ℤ
  isSilenceDetected : Bool

/-- Field initializers: lastSilenceInjectionTime = 0, flag down. -/
def initSilenceState : SilenceState := ⟨0, false⟩

/-- The silence-injection portion of one onaudioprocess callback at clock
time now (Date.now in milliseconds): inject one synthetic silence packet
only when the rms is below the threshold, the flag is down, and more than
minSilenceInterval has passed since the last injection; a loud block
(above 1.5 times the threshold) resets the flag. -/
def silenceStep (st : SilenceState) (now : ℤ) (block : List ℚ) :
    SilenceState × Bool :=
  if rmsSq block < silenceThreshold ^ 2 then
    if st.isSilenceDetected = false ∧
        minSilenceInterval < now - st.lastSilenceInjectionTime then
      (⟨now, true⟩, true)
    else (st, false)
  else if (silenceThreshold * (3 / 2)) ^ 2 < rmsSq block then
    ({ st with isSilenceDetected := false }, false)
  else (st, false)

/-- A run of capture callbacks: each event pairs the Date.now reading with
the raw block; the result is the list of times at which a synthetic
silence packet was injected. -/
def silenceRun (st : SilenceState) : List (ℤ × List ℚ) → List ℤ
  | [] => []
  | (now, blk) :: rest =>
    match silenceStep st now blk with
    | (st', true) => now :: silenceRun st' rest
    | (st', false) => silenceRun st' rest

/-! Theorems about the resampler. -/

example : downsample [1, 2, 3, 4, 5, 6] 48000 16000 = [2, 5] := by
  norm_num [downsample, downsampleLoop, windowAvg, jsRound,
    show (3 : ℤ).toNat = 3 from rfl, show (6 : ℤ).toNat = 6 from rfl]

example : downsample [1, 2, 3] 16000 16000 = [1, 2, 3] := by
  norm_num [downsample]

theorem downsampleLoop_length (input : List ℚ) (ratioQ : ℚ) :
    ∀ n j offIn, (downsampleLoop input ratioQ n j offIn).length = n := by
  intro n
  induction n with
  | zero => intro j offIn; rfl
  | succ m ih => intro j offIn; simp [downsampleLoop, ih]

theorem downsampleLoop_mem (input : List ℚ) (ratioQ : ℚ) :
    ∀ n j offIn y, y ∈ downsampleLoop input ratioQ n j offIn →
      ∃ lo hi, y = windowAvg input lo hi := by
  intro n
  induction n with
  | zero => intro j offIn y h; simp [downsampleLoop] at h
  | succ m ih =>
    intro j offIn y h
    simp only [downsampleLoop, List.mem_cons] at h
    rcases h with rfl | h
    · exact ⟨offIn, _, rfl⟩
    · exact ih _ _ y h

/-- Each window average is either 0 (empty window) or the arithmetic mean
of a nonempty contiguous run of input samples whose indices stay inside
the input block. -/
theorem windowAvg_cases (input : List ℚ) (lo hi : ℕ) :
    windowAvg input lo hi = 0 ∨
      ∃ lo' hi', lo' < hi' ∧ hi' ≤ input.length ∧
        windowAvg input lo hi =
          ((input.drop lo').take (hi' - lo')).sum / ((hi' - lo' : ℕ) : ℚ) := by
  unfold windowAvg
  by_cases h : min hi input.length - lo = 0
  · left; simp [h]
  · right
    refine ⟨lo, min hi input.length, by omega, by omega, ?_⟩
    simp [h]

/-- Every element of the input list is the average of its own
one-element window. -/
theorem mem_self_window (input : List ℚ) (y : ℚ) (hy : y ∈ input) :
    ∃ lo hi, lo < hi ∧ hi ≤ input.length ∧
      y = ((input.drop lo).take (hi - lo)).sum / ((hi - lo : ℕ) : ℚ) := by
  rcases List.mem_iff_getElem.mp hy with ⟨i, hilen, rfl⟩
  refine ⟨i, i + 1, by omega, by omega, ?_⟩
  rw [List.drop_eq_getElem_cons hilen, show i + 1 - i = 1 by omega]
  simp only [List.take_succ_cons, List.take_zero, List.sum_cons, List.sum_nil,
    Nat.cast_one, add_zero, div_one]

/-! Theorems about the codec. -/

theorem b64Val_b64Chr : ∀ n, n < 64 → b64Val (b64Chr n) = some n := by decide

theorem b64Chr_ne_eq : ∀ n, n < 64 → b64Chr n ≠ '=' := by decide

/-- Transport round trip: atob inverts btoa on every byte list. -/
theorem atob_btoa : ∀ bs : List ℕ, (∀ b ∈ bs, b < 256) → atob (btoa bs) = some bs
  | [], _ => rfl
  | [b0], h => by
    have hb0 : b0 < 256 := h b0 (by simp)
    have h0 := b64Val_b64Chr (b0 / 4) (by omega)
    have h1 := b64Val_b64Chr (b0 % 4 * 16) (by omega)
    simp [btoa, atob, h0, h1]
    omega
  | [b0, b1], h => by
    have hb0 : b0 < 256 := h b0 (by simp)
    have hb1 : b1 < 256 := h b1 (by simp)
    have h0 := b64Val_b64Chr (b0 / 4) (by omega)
    have h1 := b64Val_b64Chr (b0 % 4 * 16 + b1 / 16) (by omega)
    have h2 := b64Val_b64Chr (b1 % 16 * 4) (by omega)
    have hne : b64Chr (b1 % 16 * 4) ≠ '=' := b64Chr_ne_eq _ (by omega)
    simp [btoa, atob, h0, h1, h2, hne]
    omega
  | b0 :: b1 :: b2 :: rest, h => by
    have hb0 : b0 < 256 := h b0 (by simp)
    have hb1 : b1 < 256 := h b1 (by simp)
    have hb2 : b2 < 256 := h b2 (by simp)
    have ih := atob_btoa rest (fun b hb => h b (by simp [hb]))
    have h0 := b64Val_b64Chr (b0 / 4) (by omega)
    have h1 := b64Val_b64Chr (b0 % 4 * 16 + b1 / 16) (by omega)
    have h2 := b64Val_b64Chr (b1 % 16 * 4 + b2 / 64) (by omega)
    have h3 := b64Val_b64Chr (b2 % 64) (by omega)
    have hne2 : b64Chr (b1 % 16 * 4 + b2 / 64) ≠ '=' := b64Chr_ne_eq _ (by omega)
    have hne3 : b64Chr (b2 % 64) ≠ '=' := b64Chr_ne_eq _ (by omega)
    simp [btoa, atob, h0, h1, h2, h3, hne2, hne3, ih]
    omega

theorem toInt16_eq_self (i : ℤ) (h1 : -32768 ≤ i) (h2 : i ≤ 32767) :
    toInt16 i = i := by
  unfold toInt16; omega

theorem clampSample_le (s : ℚ) : -1 ≤ clampSample s ∧ clampSample s ≤ 1 := by
  unfold clampSample
  constructor
  · exact le_max_left _ _
  · exact max_le (by norm_num) (min_le_left _ _)

theorem clampSample_eq (s : ℚ) (h1 : -1 ≤ s) (h2 : s ≤ 1) :
    clampSample s = s := by
  unfold clampSample
  rw [min_eq_right h2, max_eq_right h1]

/-- In the negative branch the encoded value is the ceiling of
c * 32768 and the modulo-wrap is the identity. -/
theorem encodeSample_eq_neg (s : ℚ) (hneg : clampSample s < 0) :
    encodeSample s = ⌈clampSample s * 32768⌉ ∧
      -32768 ≤ ⌈clampSample s * 32768⌉ ∧ ⌈clampSample s * 32768⌉ ≤ 0 := by
  obtain ⟨hc1, _⟩ := clampSample_le s
  have ht2 : clampSample s * 32768 < 0 := by nlinarith
  have hv1 : (-32768 : ℤ) ≤ ⌈clampSample s * 32768⌉ := by
    have h32 : ((-32768 : ℤ) : ℚ) ≤ clampSample s * 32768 := by
      push_cast; nlinarith
    calc (-32768 : ℤ) = ⌈((-32768 : ℤ) : ℚ)⌉ := (Int.ceil_intCast _).symm
      _ ≤ ⌈clampSample s * 32768⌉ := Int.ceil_le_ceil h32
  have hv2 : ⌈clampSample s * 32768⌉ ≤ 0 :=
    Int.ceil_le.mpr (by push_cast; exact ht2.le)
  refine ⟨?_, hv1, hv2⟩
  simp only [encodeSample, jsTrunc, if_pos hneg, if_pos ht2]
  exact toInt16_eq_self _ hv1 (by omega)

/-- In the nonnegative branch the encoded value is the floor of
c * 32767 and the modulo-wrap is the identity. -/
theorem encodeSample_eq_nonneg (s : ℚ) (hpos : ¬ clampSample s < 0) :
    encodeSample s = ⌊clampSample s * 32767⌋ ∧
      0 ≤ ⌊clampSample s * 32767⌋ ∧ ⌊clampSample s * 32767⌋ ≤ 32767 := by
  obtain ⟨_, hc2⟩ := clampSample_le s
  have hge : (0 : ℚ) ≤ clampSample s := not_lt.mp hpos
  have ht : (0 : ℚ) ≤ clampSample s * 32767 := by nlinarith
  have ht2 : ¬ clampSample s * 32767 < 0 := not_lt.mpr ht
  have hv1 : (0 : ℤ) ≤ ⌊clampSample s * 32767⌋ := Int.floor_nonneg.mpr ht
  have hv2 : ⌊clampSample s * 32767⌋ ≤ 32767 := by
    have h32 : clampSample s * 32767 ≤ ((32767 : ℤ) : ℚ) := by
      push_cast; nlinarith
    calc ⌊clampSample s * 32767⌋ ≤ ⌊((32767 : ℤ) : ℚ)⌋ := Int.floor_le_floor h32
      _ = 32767 := Int.floor_intCast _
  refine ⟨?_, hv1, hv2⟩
  simp only [encodeSample, jsTrunc, if_neg hpos, if_neg ht2]
  exact toInt16_eq_self _ (by omega) hv2

theorem encodeSample_range (s : ℚ) :
    -32768 ≤ encodeSample s ∧ encodeSample s ≤ 32767 := by
  by_cases hneg : clampSample s < 0
  · obtain ⟨he, h1, h2⟩ := encodeSample_eq_neg s hneg
    rw [he]; omega
  · obtain ⟨he, h1, h2⟩ := encodeSample_eq_nonneg s hneg
    rw [he]; omega

/-- The per-sample encode-decode pipeline through bytes and base64 loses
nothing beyond quantization: the decoded packet of an encoded single
sample is exactly the quantized sample. -/
theorem decode_encode_single (x : ℚ) :
    decodeSamples (encodePacket [x]) =
      some [decodeSample (encodeSample x)] := by
  obtain ⟨hr1, hr2⟩ := encodeSample_range x
  have hmod1 : (0 : ℤ) ≤ encodeSample x % 65536 :=
    Int.emod_nonneg _ (by norm_num)
  have hmod2 : encodeSample x % 65536 < 65536 :=
    Int.emod_lt_of_pos _ (by norm_num)
  have hu : ((encodeSample x % 65536).toNat : ℤ) = encodeSample x % 65536 :=
    Int.toNat_of_nonneg hmod1
  set u := (encodeSample x % 65536).toNat with hudef
  have hult : u < 65536 := by omega
  unfold encodePacket decodeSamples decodePacket int16ToBytesLE
  simp only [List.map_cons, List.map_nil, List.flatten_cons, List.flatten_nil,
    List.append_nil]
  rw [atob_btoa [u % 256, u / 256] (by
    intro b hb
    simp only [List.mem_cons, List.not_mem_nil, or_false] at hb
    rcases hb with rfl | rfl <;> omega)]
  have hkey : toSigned16 (u % 256 + 256 * (u / 256)) = encodeSample x := by
    have husplit : u % 256 + 256 * (u / 256) = u := by omega
    rw [husplit]
    unfold toSigned16
    split_ifs with hlt <;> omega
  simp [bytesToInt16s, hkey]

/-! Theorems about the playback scheduler. -/

theorem enqueueStep_none (st now : ℚ) (pkt : List Char)
    (hdec : decodeSamples pkt = none) :
    enqueueStep st now pkt = (st, none, []) := by
  simp [enqueueStep, hdec]

theorem enqueueStep_some (st now : ℚ) (pkt : List Char) (samples : List ℚ)
    (hdec : decodeSamples pkt = some samples) :
    enqueueStep st now pkt =
      ((if st < now then now else st) + (samples.length : ℚ) / 24000,
        some ⟨now, if st < now then now else st,
          (samples.length : ℚ) / 24000⟩, []) := by
  simp [enqueueStep, hdec]

theorem runEnqueue_cons (st now : ℚ) (pkt : List Char)
    (rest : List (ℚ × List Char)) :
    runEnqueue st ((now, pkt) :: rest) =
      match enqueueStep st now pkt with
      | (st', some e, _) => e :: runEnqueue st' rest
      | (st', none, _) => runEnqueue st' rest := rfl

/-- The cursor never moves backward: every buffer scheduled from cursor
position st starts no earlier than st. -/
theorem runEnqueue_start_ge (evts : List (ℚ × List Char)) :
    ∀ st, ∀ e ∈ runEnqueue st evts, st ≤ e.start := by
  induction evts with
  | nil => intro st e he; simp [runEnqueue] at he
  | cons ev rest ih =>
    intro st e he
    obtain ⟨now, pkt⟩ := ev
    cases hdec : decodeSamples pkt with
    | none =>
      rw [runEnqueue_cons, enqueueStep_none st now pkt hdec] at he
      exact ih st e he
    | some samples =>
      rw [runEnqueue_cons, enqueueStep_some st now pkt samples hdec] at he
      simp only [List.mem_cons] at he
      have hstart : st ≤ if st < now then now else st := by
        by_cases h : st < now
        · rw [if_pos h]; exact h.le
        · rw [if_neg h]
      rcases he with rfl | he
      · exact hstart
      · have hdur : (0 : ℚ) ≤ (samples.length : ℚ) / 24000 := by positivity
        have := ih _ e he
        linarith

theorem runEnqueue_pairwise (evts : List (ℚ × List Char)) :
    ∀ st, List.Pairwise (fun a b => a.start ≤ b.start) (runEnqueue st evts) := by
  induction evts with
  | nil => intro st; simp [runEnqueue]
  | cons ev rest ih =>
    intro st
    obtain ⟨now, pkt⟩ := ev
    cases hdec : decodeSamples pkt with
    | none =>
      rw [runEnqueue_cons, enqueueStep_none st now pkt hdec]
      exact ih st
    | some samples =>
      rw [runEnqueue_cons, enqueueStep_some st now pkt samples hdec]
      refine List.Pairwise.cons ?_ (ih _)
      intro e he
      have hdur : (0 : ℚ) ≤ (samples.length : ℚ) / 24000 := by positivity
      have := runEnqueue_start_ge rest _ e he
      simp only at this ⊢
      linarith

/-- Every scheduled buffer starts no earlier than the output-clock reading
taken at its scheduling call. -/
theorem runEnqueue_now_le (evts : List (ℚ × List Char)) :
    ∀ st, ∀ e ∈ runEnqueue st evts, e.now ≤ e.start := by
  induction evts with
  | nil => intro st e he; simp [runEnqueue] at he
  | cons ev rest ih =>
    intro st e he
    obtain ⟨now, pkt⟩ := ev
    cases hdec : decodeSamples pkt with
    | none =>
      rw [runEnqueue_cons, enqueueStep_none st now pkt hdec] at he
      exact ih st e he
    | some samples =>
      rw [runEnqueue_cons, enqueueStep_some st now pkt samples hdec] at he
      simp only [List.mem_cons] at he
      rcases he with rfl | he
      · simp only
        by_cases h : st < now
        · rw [if_pos h]
        · rw [if_neg h]; exact not_lt.mp h
      · exact ih _ e he

/-! Theorems about the volume monitor. -/

theorem getD_le_255 (d : List ℕ) (h : ∀ b ∈ d, b ≤ 255) : d.getD 0 0 ≤ 255 := by
  cases d with
  | nil => simp
  | cons a l => exact h a (by simp)

/-- Every emitted volume event reads the first analyser bin of one of the
two active paths and divides by 255. -/
theorem volumeTick_val (ia oa : Option (List ℕ)) (p : Bool × ℚ)
    (hp : p ∈ volumeTick ia oa) :
    ∃ d, (ia = some d ∨ oa = some d) ∧
      p.2 = ((d.getD 0 0 : ℕ) : ℚ) / 255 := by
  cases ia with
  | none =>
    cases oa with
    | none => simp [volumeTick] at hp
    | some d =>
      simp [volumeTick] at hp
      exact ⟨d, Or.inr rfl, by rw [hp]; simp [List.getD]⟩
  | some d =>
    cases oa with
    | none =>
      simp [volumeTick] at hp
      exact ⟨d, Or.inl rfl, by rw [hp]; simp [List.getD]⟩
    | some d2 =>
      simp [volumeTick] at hp
      rcases hp with hp | hp
      · exact ⟨d, Or.inl rfl, by rw [hp]; simp [List.getD]⟩
      · exact ⟨d2, Or.inr rfl, by rw [hp]; simp [List.getD]⟩

/-! Theorems about silence injection. -/

theorem silenceStep_inject (st : SilenceState) (now : ℤ) (blk : List ℚ)
    (h : (silenceStep st now blk).2 = true) :
    minSilenceInterval < now - st.lastSilenceInjectionTime ∧
      (silenceStep st now blk).1.lastSilenceInjectionTime = now := by
  unfold silenceStep at h ⊢
  split_ifs at h ⊢ with h1 h2 h3
  exact ⟨h2.2, rfl⟩

theorem silenceStep_skip (st : SilenceState) (now : ℤ) (blk : List ℚ)
    (h : (silenceStep st now blk).2 = false) :
    (silenceStep st now blk).1.lastSilenceInjectionTime =
      st.lastSilenceInjectionTime := by
  unfold silenceStep at h ⊢
  split_ifs at h ⊢ with h1 h2 h3
  all_goals rfl

theorem silenceRun_cons (st : SilenceState) (now : ℤ) (blk : List ℚ)
    (rest : List (ℤ × List ℚ)) :
    silenceRun st ((now, blk) :: rest) =
      (if (silenceStep st now blk).2 then [now] else []) ++
        silenceRun (silenceStep st now blk).1 rest := by
  rcases hs : silenceStep st now blk with ⟨st', inj⟩
  cases inj <;> simp [silenceRun, hs]

/-- Every injection in a run happens strictly more than the minimum
interval after the last-injection time recorded in the starting state. -/
theorem silenceRun_gt (evts : List (ℤ × List ℚ)) :
    ∀ st t, t ∈ silenceRun st evts →
      st.lastSilenceInjectionTime + minSilenceInterval < t := by
  induction evts with
  | nil => intro st t ht; simp [silenceRun] at ht
  | cons ev rest ih =>
    intro st t ht
    obtain ⟨now, blk⟩ := ev
    rw [silenceRun_cons] at ht
    have hIpos : (0 : ℤ) < minSilenceInterval := by decide
    rcases List.mem_append.mp ht with h | h
    · cases hinj : (silenceStep st now blk).2 with
      | false => rw [hinj] at h; simp at h
      | true =>
        rw [hinj] at h
        simp only [if_true, List.mem_singleton] at h
        subst h
        have := (silenceStep_inject st t blk hinj).1
        omega
    · cases hinj : (silenceStep st now blk).2 with
      | false =>
        have hkeep := silenceStep_skip st now blk hinj
        have := ih (silenceStep st now blk).1 t h
        omega
      | true =>
        obtain ⟨hgap, hset⟩ := silenceStep_inject st now blk hinj
        have := ih (silenceStep st now blk).1 t h
        omega

/-- Any two injections of a run are separated by strictly more than the
minimum interval. -/
theorem silenceRun_pairwise (evts : List (ℤ × List ℚ)) :
    ∀ st, List.Pairwise (fun s t => s + minSilenceInterval < t)
      (silenceRun st evts) := by
  induction evts with
  | nil => intro st; simp [silenceRun]
  | cons ev rest ih =>
    intro st
    obtain ⟨now, blk⟩ := ev
    rw [silenceRun_cons]
    cases hinj : (silenceStep st now blk).2 with
    | false => simpa using ih (silenceStep st now blk).1
    | true =>
      simp only [if_true, List.singleton_append]
      refine List.Pairwise.cons ?_ (ih (silenceStep st now blk).1)
      intro t ht
      have hset := (silenceStep_inject st now blk hinj).2
      have := silenceRun_gt rest (silenceStep st now blk).1 t ht
      omega

/-- A list whose members are pairwise separated by more than the minimum
interval has at most one member in any closed window of that length. -/
theorem pairwise_window_count (l : List ℤ)
    (hl : List.Pairwise (fun s t => s + minSilenceInterval < t) l) (a : ℤ) :
    (l.countP fun t => decide (a ≤ t ∧ t ≤ a + minSilenceInterval)) ≤ 1 := by
  induction l with
  | nil => simp
  | cons t l ih =>
    rw [List.countP_cons]
    rcases List.pairwise_cons.mp hl with ⟨hhead, htail⟩
    by_cases hp : a ≤ t ∧ t ≤ a + minSilenceInterval
    · have hzero :
          (l.countP fun u => decide (a ≤ u ∧ u ≤ a + minSilenceInterval)) = 0 := by
        rw [List.countP_eq_zero]
        intro u hu
        have := hhead u hu
        simp only [decide_eq_true_eq]
        omega
      rw [hzero]
      have htrue : decide (a ≤ t ∧ t ≤ a + minSilenceInterval) = true :=
        decide_eq_true hp
      rw [htrue]
      simp
    · have hfalse : decide (a ≤ t ∧ t ≤ a + minSilenceInterval) = false :=
        decide_eq_false hp
      rw [hfalse]
      simpa using ih htail

end AudioEngine

namespace Claims

open AudioEngine

/-- Claim C1: for every input block of N samples at rate F downsampled to
rate R (F, R positive), the output of the resampler has length
ceil(N / (F/R)), and when F = R the output is the input block
unchanged. -/
theorem c1_downsample_length (input : List ℚ) (F R : ℚ)
    (hF : 0 < F) (hR : 0 < R) :
    (downsample input F R).length = (⌈(input.length : ℚ) / (F / R)⌉).toNat ∧
      (F = R → downsample input F R = input) := by
  constructor
  · by_cases h : F = R
    · subst h
      rw [downsample, if_pos rfl, div_self (ne_of_gt hF), div_one]
      simp
    · rw [downsample, if_neg h]
      exact downsampleLoop_length input (F / R) _ 0 0
  · intro h
    rw [downsample, if_pos h]

/-- Witness for C1: the end-to-end scenario of spec section 8, a block of
4096 samples at 48000 Hz downsampled to 16000 Hz yields 1366 samples. -/
theorem c1_downsample_length_witness :
    (0 : ℚ) < 48000 ∧ (0 : ℚ) < 16000 ∧
      (downsample (List.replicate 4096 0) 48000 16000).length = 1366 := by
  have h := c1_downsample_length (List.replicate 4096 0) 48000 16000
    (by norm_num) (by norm_num)
  have hc : ⌈((List.replicate (4096 : ℕ) (0 : ℚ)).length : ℚ) / (48000 / 16000)⌉
      = 1366 := by
    rw [Int.ceil_eq_iff] <;> norm_num
  refine ⟨by norm_num, by norm_num, ?_⟩
  rw [h.1, hc]
  rfl

/-- Claim C10: the resampler is total for every input block and every pair
of positive rates; every output sample is either 0 (an averaging window
that contains no input samples) or the arithmetic mean of a nonempty
contiguous window of input samples lying entirely inside the input block
(the averaging loop never reads past the end of the input). -/
theorem c10_downsample_safe (input : List ℚ) (F R : ℚ)
    (hF : 0 < F) (hR : 0 < R) (y : ℚ) (hy : y ∈ downsample input F R) :
    y = 0 ∨
      ∃ lo hi, lo < hi ∧ hi ≤ input.length ∧
        y = ((input.drop lo).take (hi - lo)).sum / ((hi - lo : ℕ) : ℚ) := by
  rw [downsample] at hy
  by_cases h : F = R
  · rw [if_pos h] at hy
    exact Or.inr (mem_self_window input y hy)
  · rw [if_neg h] at hy
    rcases downsampleLoop_mem input (F / R) _ 0 0 y hy with ⟨lo, hi, rfl⟩
    rcases windowAvg_cases input lo hi with h0 | ⟨lo', hi', h1, h2, h3⟩
    · exact Or.inl h0
    · exact Or.inr ⟨lo', hi', h1, h2, h3⟩

/-- Witness for C10: in the block [4, 6] downsampled from rate 2 to
rate 1 the single output sample 5 is the mean of the window covering both
input samples. -/
theorem c10_downsample_safe_witness :
    (0 : ℚ) < 2 ∧ (0 : ℚ) < 1 ∧ 5 ∈ downsample [4, 6] 2 1 ∧
      ((5 : ℚ) = 0 ∨
        ∃ lo hi, lo < hi ∧ hi ≤ ([4, 6] : List ℚ).length ∧
          (5 : ℚ) = ((([4, 6] : List ℚ).drop lo).take (hi - lo)).sum /
            ((hi - lo : ℕ) : ℚ)) := by
  have hmem : (5 : ℚ) ∈ downsample [4, 6] 2 1 := by
    norm_num [downsample, downsampleLoop, windowAvg, jsRound,
      show (2 : ℤ).toNat = 2 from rfl]
  exact ⟨by norm_num, by norm_num, hmem,
    c10_downsample_safe [4, 6] 2 1 (by norm_num) (by norm_num) 5 hmem⟩

/-- Counterexample to claim C2 as stated: for the sample x = 65535/65536
the encode-decode round trip yields 16383/16384, and the error 3/65536
exceeds one quantization step 1/32768 = 2/65536. -/
theorem c2_roundtrip_counterexample :
    decodeSamples (encodePacket [(65535 : ℚ) / 65536]) =
        some [16383 / 16384] ∧
      ¬ (|(65535 : ℚ) / 65536 - 16383 / 16384| ≤ 1 / 32768) := by
  have hclamp : clampSample ((65535 : ℚ) / 65536) = 65535 / 65536 :=
    clampSample_eq _ (by norm_num) (by norm_num)
  have hfloor : ⌊(65535 : ℚ) / 65536 * 32767⌋ = 32766 := by norm_num
  have henc : encodeSample ((65535 : ℚ) / 65536) = 32766 := by
    simp only [encodeSample, jsTrunc, hclamp]
    rw [if_neg (by norm_num), if_neg (by norm_num), hfloor]
    unfold toInt16
    decide
  constructor
  · rw [decode_encode_single, henc]
    unfold decodeSample
    norm_num
  · have hdiff : (65535 : ℚ) / 65536 - 16383 / 16384 = 3 / 65536 := by norm_num
    rw [hdiff, abs_of_pos (by norm_num)]
    norm_num

/-- Claim C2 as amended: for every float sample x in [-1,1], encoding
(clamp, map via s < 0 ? s*32768 : s*32767, little-endian 16-bit packing,
base64 wrap) followed by decoding (base64 unwrap, signed 16-bit
reinterpretation, division by 32768) yields a value differing from x by
strictly less than two quantization steps (2/32768) in magnitude; the
one-step bound of the original claim fails for positive samples near 1. -/
theorem c2_roundtrip_error_bound (x : ℚ) (h1 : -1 ≤ x) (h2 : x ≤ 1) :
    ∃ y, decodeSamples (encodePacket [x]) = some [y] ∧
      |x - y| < 2 / 32768 := by
  have hclamp : clampSample x = x := clampSample_eq x h1 h2
  refine ⟨decodeSample (encodeSample x), decode_encode_single x, ?_⟩
  by_cases hneg : clampSample x < 0
  · obtain ⟨he, hv1, hv2⟩ := encodeSample_eq_neg x hneg
    rw [hclamp] at he
    rw [he]
    simp only [decodeSample]
    have hle : x * 32768 ≤ ((⌈x * 32768⌉ : ℤ) : ℚ) := Int.le_ceil _
    have hlt : ((⌈x * 32768⌉ : ℤ) : ℚ) < x * 32768 + 1 := Int.ceil_lt_add_one _
    rw [abs_sub_comm, abs_of_nonneg (by linarith)]
    linarith
  · obtain ⟨he, hv1, hv2⟩ := encodeSample_eq_nonneg x hneg
    rw [hclamp] at he hneg
    have hx0 : (0 : ℚ) ≤ x := not_lt.mp hneg
    rw [he]
    simp only [decodeSample]
    have hfle : ((⌊x * 32767⌋ : ℤ) : ℚ) ≤ x * 32767 := Int.floor_le _
    have hflt : x * 32767 < ((⌊x * 32767⌋ : ℤ) : ℚ) + 1 := Int.lt_floor_add_one _
    rw [abs_of_nonneg (by linarith)]
    linarith

/-- Witness for the amended C2 bound at x = 1/2: the decoded value is
16383/32768 and the round-trip error is below two quantization steps. -/
theorem c2_roundtrip_error_bound_witness :
    (-1 : ℚ) ≤ 1 / 2 ∧ (1 / 2 : ℚ) ≤ 1 ∧
      ∃ y, decodeSamples (encodePacket [(1 : ℚ) / 2]) = some [y] ∧
        |(1 : ℚ) / 2 - y| < 2 / 32768 :=
  ⟨by norm_num, by norm_num,
    c2_roundtrip_error_bound (1 / 2) (by norm_num) (by norm_num)⟩

/-- Claim C3: for every sequence of packets enqueued for playback, the
computed buffer start times are non-decreasing (arrival order preserved),
and no buffer starts earlier than the output-clock reading taken at the
moment that buffer is scheduled. -/
theorem c3_scheduler_monotonicity (st : ℚ) (evts : List (ℚ × List Char)) :
    List.Pairwise (fun a b => a.start ≤ b.start) (runEnqueue st evts) ∧
      ∀ e ∈ runEnqueue st evts, e.now ≤ e.start :=
  ⟨runEnqueue_pairwise evts st, runEnqueue_now_le evts st⟩

/-- Claim C4: when a packet is enqueued while the cursor is behind the
output clock, the scheduled start time is reset to now exactly (the code
adds no epsilon, which is at most any configured epsilon), and the cursor
is then advanced by exactly the buffer duration. -/
theorem c4_drift_reset (st now : ℚ) (pkt : List Char) (samples : List ℚ)
    (hdec : decodeSamples pkt = some samples) (hbehind : st < now) :
    enqueueStep st now pkt =
      (now + (samples.length : ℚ) / 24000,
        some ⟨now, now, (samples.length : ℚ) / 24000⟩, []) := by
  rw [enqueueStep_some st now pkt samples hdec, if_pos hbehind]

/-- Witness for C4: a one-sample packet enqueued with a stale cursor 0
against clock time 1 starts at 1 and advances the cursor to
1 + 1/24000. -/
theorem c4_drift_reset_witness :
    decodeSamples ['A', 'A', 'A', '='] = some [0] ∧ (0 : ℚ) < 1 ∧
      enqueueStep 0 1 ['A', 'A', 'A', '='] =
        (1 + (([(0 : ℚ)].length : ℚ)) / 24000,
          some ⟨1, 1, (([(0 : ℚ)].length : ℚ)) / 24000⟩, []) := by
  have hpkt : decodePacket ['A', 'A', 'A', '='] = some [0] := by decide
  have hdec : decodeSamples ['A', 'A', 'A', '='] = some [0] := by
    simp [decodeSamples, hpkt, decodeSample]
  exact ⟨hdec, by norm_num, c4_drift_reset 0 1 _ [0] hdec (by norm_num)⟩

/-- Claim C7: an inbound packet that cannot be decoded schedules no
playback, leaves the cursor unchanged, sends nothing to the error
channel, and does not affect the handling of the packets that follow. -/
theorem c7_malformed_packet_dropped (st now : ℚ) (pkt : List Char)
    (hdec : decodeSamples pkt = none) (rest : List (ℚ × List Char)) :
    enqueueStep st now pkt = (st, none, []) ∧
      runEnqueue st ((now, pkt) :: rest) = runEnqueue st rest := by
  have h1 : enqueueStep st now pkt = (st, none, []) :=
    enqueueStep_none st now pkt hdec
  refine ⟨h1, ?_⟩
  rw [runEnqueue_cons, h1]

/-- Witness for C7: a packet that decodes to an odd number of bytes is
dropped with the cursor left at 5, and the following well-formed packet
is processed as if the malformed one had never arrived. -/
theorem c7_malformed_packet_dropped_witness :
    decodeSamples ['A', 'A', 'A', 'A'] = none ∧
      enqueueStep 5 3 ['A', 'A', 'A', 'A'] = (5, none, []) ∧
      runEnqueue 5 [(3, ['A', 'A', 'A', 'A']), (7, ['A', 'A', 'A', '='])] =
        runEnqueue 5 [(7, ['A', 'A', 'A', '='])] := by
  have hpkt : decodePacket ['A', 'A', 'A', 'A'] = none := by decide
  have hdec : decodeSamples ['A', 'A', 'A', 'A'] = none := by
    simp [decodeSamples, hpkt]
  have h := c7_malformed_packet_dropped 5 3 ['A', 'A', 'A', 'A'] hdec
    [(7, ['A', 'A', 'A', '='])]
  exact ⟨hdec, h.1, h.2⟩

/-- Counterexample to claim C5 as stated: when device acquisition fails in
startInput, the freshly created input context is retained (inputCtx stays
non-null), so a partial capture graph is left; and after a previous
successful capture the old analyser member survives the failed restart as
well, because stopInput never clears it.  Only the error report matches
the claim. -/
theorem c5_start_input_counterexample :
    (startInput initCaptureState false "Permission denied").1.inputCtx = true ∧
      (startInput initCaptureState false "Permission denied").2 =
        ["Mic Error: Permission denied"] ∧
      (startInput ⟨true, true, true, true, true, true⟩ false
        "Permission denied").1.inputAnalyser = true := by
  refine ⟨rfl, rfl, rfl⟩

/-- Claim C5 as amended: when device acquisition fails in startInput, the
failure is reported on the error channel with a descriptive message and no
stream, source, gain node, or processor is retained; however, the input
context created before the failed getUserMedia call remains retained, and
the analyser member keeps whatever value it had before the call (a
previous capture's analyser is never cleared, since stopInput does not
null it). -/
theorem c5_start_input_failure (s : AudioEngine.CaptureState) (msg : String) :
    (startInput s false msg).2 = ["Mic Error: " ++ msg] ∧
      (startInput s false msg).1.stream = false ∧
      (startInput s false msg).1.source = false ∧
      (startInput s false msg).1.inputGainNode = false ∧
      (startInput s false msg).1.processor = false ∧
      (startInput s false msg).1.inputCtx = true ∧
      (startInput s false msg).1.inputAnalyser = s.inputAnalyser := by
  simp [startInput, stopInput]

/-- Counterexample to claim C6 as stated: setInputGain stores the passed
value without clamping, so the stored gain can leave [0, 2]. -/
theorem c6_gain_counterexample :
    (setInputGain initGainState 5).currentInputGain = 5 ∧
      ¬ ((setInputGain initGainState 5).currentInputGain ≤ 2) := by
  refine ⟨rfl, ?_⟩
  show ¬ ((5 : ℚ) ≤ 2)
  norm_num

/-- Claim C6 as amended: setInputGain and setOutputGain store and apply
the passed value unchanged (no clamping is performed), and the default
stored gains are 1.0; the stored gain therefore lies in [0, 2] exactly
when the caller passes a value in that range. -/
theorem c6_gain_stored_unclamped (s : AudioEngine.GainState) (v : ℚ) :
    (setInputGain s v).currentInputGain = v ∧
      (setOutputGain s v).currentOutputGain = v ∧
      (setInputGain s v).inputGainNodeValue =
        s.inputGainNodeValue.map (fun _ => v) ∧
      (setOutputGain s v).outputGainNodeValue =
        s.outputGainNodeValue.map (fun _ => v) ∧
      initGainState.currentInputGain = 1 ∧
      initGainState.currentOutputGain = 1 :=
  ⟨rfl, rfl, rfl, rfl, rfl, rfl⟩

/-- Counterexample to claim C8 as stated, in both reachable shapes of an
inactive path: a capture path whose analyser member is still null emits
nothing at all (in particular not the claimed 0), and a capture path that
was stopped after running keeps its analyser member (stopInput never
clears it), so the still-running tick emits the stale nonzero value
100/255 for the inactive path instead of 0. -/
theorem c8_volume_counterexample :
    (stopInput ⟨true, true, true, true, true, true⟩).inputAnalyser = true ∧
      volumeTick (some [100]) none = [(true, 100 / 255)] ∧
      ¬ ((100 : ℚ) / 255 = 0) ∧
      (true, (0 : ℚ)) ∉ volumeTick none (some [100]) := by
  refine ⟨rfl, ?_, by norm_num, by simp [volumeTick]⟩
  norm_num [volumeTick, List.getD]

/-- Claim C8 as amended: every volume value emitted by a monitor tick lies
in [0, 1].  The tick guards each emission on the analyser member being
non-null, not on the path being active: a path whose analyser member is
null emits nothing, a path whose analyser member is non-null always emits
its current first-bin reading over 255, and stopInput leaves the capture
analyser member untouched, so an inactive capture path with a stale
analyser keeps emitting stale values rather than 0 or nothing. -/
theorem c8_volume_range (ia oa : Option (List ℕ))
    (hia : ∀ d, ia = some d → ∀ b ∈ d, b ≤ 255)
    (hoa : ∀ d, oa = some d → ∀ b ∈ d, b ≤ 255) :
    (∀ p ∈ volumeTick ia oa, 0 ≤ p.2 ∧ p.2 ≤ 1) ∧
      (ia = none → ∀ v, (true, v) ∉ volumeTick ia oa) ∧
      (oa = none → ∀ v, (false, v) ∉ volumeTick ia oa) ∧
      (∀ d, ia = some d →
        (true, ((d.getD 0 0 : ℕ) : ℚ) / 255) ∈ volumeTick ia oa) ∧
      (∀ d, oa = some d →
        (false, ((d.getD 0 0 : ℕ) : ℚ) / 255) ∈ volumeTick ia oa) ∧
      (∀ s : CaptureState, (stopInput s).inputAnalyser = s.inputAnalyser) := by
  refine ⟨?_, ?_, ?_, ?_, ?_, fun s => rfl⟩
  · intro p hp
    obtain ⟨d, hd, hval⟩ := volumeTick_val ia oa p hp
    have hdle : d.getD 0 0 ≤ 255 := by
      rcases hd with hd | hd
      · exact getD_le_255 d (hia d hd)
      · exact getD_le_255 d (hoa d hd)
    rw [hval]
    constructor
    · positivity
    · rw [div_le_one (by norm_num)]
      exact_mod_cast hdle
  · rintro rfl v
    cases oa with
    | none => simp [volumeTick]
    | some d => simp [volumeTick]
  · rintro rfl v
    cases ia with
    | none => simp [volumeTick]
    | some d => simp [volumeTick]
  · rintro d rfl
    cases oa with
    | none => simp [volumeTick]
    | some d2 => simp [volumeTick]
  · rintro d rfl
    cases ia with
    | none => simp [volumeTick]
    | some d2 => simp [volumeTick]

/-- Witness for the amended C8: with the capture analyser member non-null
and reporting first bin 128 and the playback analyser member null, the
single emitted value 128/255 lies in [0, 1], the capture path emits it,
and nothing is emitted for the playback path. -/
theorem c8_volume_range_witness :
    (∀ p ∈ volumeTick (some [128]) none, 0 ≤ p.2 ∧ p.2 ≤ 1) ∧
      ((some [128] : Option (List ℕ)) = none →
        ∀ v, (true, v) ∉ volumeTick (some [128]) none) ∧
      ((none : Option (List ℕ)) = none →
        ∀ v, (false, v) ∉ volumeTick (some [128]) none) ∧
      (∀ d, (some [128] : Option (List ℕ)) = some d →
        (true, ((d.getD 0 0 : ℕ) : ℚ) / 255) ∈ volumeTick (some [128]) none) ∧
      (∀ d, (none : Option (List ℕ)) = some d →
        (false, ((d.getD 0 0 : ℕ) : ℚ) / 255) ∈ volumeTick (some [128]) none) ∧
      (∀ s : AudioEngine.CaptureState,
        (stopInput s).inputAnalyser = s.inputAnalyser) :=
  c8_volume_range (some [128]) none
    (by rintro d ⟨rfl⟩; intro b hb; simp at hb; omega)
    (by rintro d ⟨⟩)

/-- Claim C9: across any closed time window whose length equals the
configured minimum silence interval, at most one synthetic silence block
is injected, however many capture callbacks in the window observe rms
below the silence threshold. -/
theorem c9_silence_rate_limit (evts : List (ℤ × List ℚ)) (a : ℤ) :
    ((silenceRun initSilenceState evts).countP
        fun t => decide (a ≤ t ∧ t ≤ a + minSilenceInterval)) ≤ 1 :=
  pairwise_window_count _ (silenceRun_pairwise evts initSilenceState) a

end Claims
